import Mathlib

/-!
Verification model of `sequence.c` (minfrin/sequence): a run-parts style
sequencer that lists a directory, sorts the non-dot entry names with
`strcmp`, and either prints each full path or forks/execs each entry in
order, relaying the child's stderr and decoding its wait status.

Byte strings (C strings without their NUL terminator) are modelled as
`List Nat`; `47` is the byte of a slash, `46` of a dot, `10` of a newline.
-/

/-- A file name or byte string: the bytes of a NUL-free C string. -/
abbrev Name := List Nat

/-! ## sort_strcmp (sequence.c lines 143-147)

`sort_strcmp` compares two C strings with `strcmp`; `qsort` uses it to sort
the collected names.  `strcmp_le a b` is the boolean `strcmp(a, b) <= 0`:
bytes are compared left to right, and at the end of a string the NUL
terminator (0) is smaller than any remaining byte of the other string. -/

def strcmp_le : Name → Name → Bool
  | [], _ => true
  | _ :: _, [] => false
  | a :: as, b :: bs => if a < b then true else if b < a then false else strcmp_le as bs

/-- `strcmp(a, b) <= 0` as a relation, the order `qsort` sorts by. -/
def StrLE (a b : Name) : Prop := strcmp_le a b = true

instance : DecidableRel StrLE := fun a b =>
  inferInstanceAs (Decidable (strcmp_le a b = true))

theorem strcmp_le_total : ∀ a b : Name, strcmp_le a b = true ∨ strcmp_le b a = true
  | [], _ => Or.inl rfl
  | _ :: _, [] => Or.inr rfl
  | a :: as, b :: bs => by
    rcases Nat.lt_trichotomy a b with h | h | h
    · left
      simp [strcmp_le, h]
    · subst h
      have := strcmp_le_total as bs
      simpa [strcmp_le] using this
    · right
      simp [strcmp_le, h, Nat.lt_asymm h]

theorem strcmp_le_trans : ∀ a b c : Name,
    strcmp_le a b = true → strcmp_le b c = true → strcmp_le a c = true
  | [], _, _, _, _ => rfl
  | _ :: _, [], _, hab, _ => by simp [strcmp_le] at hab
  | _ :: _, _ :: _, [], _, hbc => by simp [strcmp_le] at hbc
  | a :: as, b :: bs, c :: cs, hab, hbc => by
    simp only [strcmp_le] at hab hbc ⊢
    rcases Nat.lt_trichotomy a b with h₁ | h₁ | h₁
    · rcases Nat.lt_trichotomy b c with h₂ | h₂ | h₂
      · simp [Nat.lt_trans h₁ h₂]
      · subst h₂; simp [h₁]
      · simp [h₁, Nat.lt_asymm h₁] at hab
        rcases Nat.lt_trichotomy a c with h₃ | h₃ | h₃ <;>
          simp_all [strcmp_le, Nat.lt_asymm]
    · subst h₁
      rcases Nat.lt_trichotomy a c with h₃ | h₃ | h₃
      · simp [h₃]
      · subst h₃
        simp only [Nat.lt_irrefl, if_false] at hab hbc ⊢
        exact strcmp_le_trans as bs cs hab hbc
      · simp [Nat.lt_asymm h₃, h₃] at hbc
    · simp [h₁, Nat.lt_asymm h₁] at hab

theorem strcmp_le_antisymm : ∀ a b : Name,
    strcmp_le a b = true → strcmp_le b a = true → a = b
  | [], [], _, _ => rfl
  | [], _ :: _, _, hba => by simp [strcmp_le] at hba
  | _ :: _, [], hab, _ => by simp [strcmp_le] at hab
  | a :: as, b :: bs, hab, hba => by
    simp only [strcmp_le] at hab hba
    rcases Nat.lt_trichotomy a b with h | h | h
    · simp [h, Nat.lt_asymm h] at hba
    · subst h
      simp only [Nat.lt_irrefl, if_false] at hab hba
      rw [strcmp_le_antisymm as bs hab hba]
    · simp [h, Nat.lt_asymm h] at hab

instance : IsTotal Name StrLE := ⟨fun a b => strcmp_le_total a b⟩

instance : IsTrans Name StrLE := ⟨fun a b c => strcmp_le_trans a b c⟩

instance : IsAntisymm Name StrLE := ⟨fun a b => strcmp_le_antisymm a b⟩

/-! ## EntryLister (sequence.c lines 323-342)

The readdir loop skips every entry whose name starts with a dot
(`de->d_name[0] == '.'`), collects the rest, and `qsort`s them with
`sort_strcmp`.  `qsort` is modelled by `List.insertionSort StrLE`: for a
total, transitive, antisymmetric order any comparison sort of the same
multiset produces the same sorted list, so the choice of algorithm is
immaterial (`List.eq_of_perm_of_sorted`). -/

/-- The test `de->d_name[0] == '.'` on line 326. -/
def starts_dot : Name → Bool
  | [] => false
  | c :: _ => c == 46

/-- The listing phase: filter out dot entries, sort the rest by `strcmp`. -/
def list_names (enum : List Name) : List Name :=
  List.insertionSort StrLE (enum.filter (fun nm => !starts_dot nm))

example : list_names [[50], [49, 48], [46, 97], [57]] = [[49, 48], [50], [57]] := by decide

/-! ## ExitOutcomeDecoder (sequence.c lines 496-526)

The parent inspects the raw `waitpid` status with the Linux/glibc wait
macros.  On this platform: `WTERMSIG(s) = s & 0x7f`,
`WEXITSTATUS(s) = (s & 0xff00) >> 8`, `WIFEXITED(s) ⟺ (s & 0x7f) == 0`,
and `WIFSIGNALED(s) ⟺ 1 <= (s & 0x7f) <= 126` (the value `0x7f` marks a
stopped/continued process).  The raw status is a nonnegative machine
integer, modelled as `Nat`; the masks are `% 128` and `/ 256 % 256`. -/

def wtermsig (s : Nat) : Nat := s % 128

def wexitstatus (s : Nat) : Nat := s / 256 % 256

def wifexited (s : Nat) : Bool := s % 128 == 0

def wifsignaled (s : Nat) : Bool := s % 128 != 0 && s % 128 != 127

/-- Decoded child termination (spec section 4.2). -/
inductive Outcome where
  | success
  | exitCode (code : Nat)
  | signaled (signal : Nat)
  | abnormal
deriving DecidableEq

/-- The if/else chain on lines 496-526, as a pure decode function. -/
def decode_status (s : Nat) : Outcome :=
  if wifexited s && (wexitstatus s == 0) then .success
  else if wifexited s then .exitCode (wexitstatus s)
  else if wifsignaled s then .signaled (wtermsig s)
  else .abnormal

/-- What the executor loop does after decoding: fall through to the next
entry, or `return` from `main` with an exit code. -/
inductive StepAction where
  | proceed
  | halt (code : Nat)
deriving DecidableEq

/-- How lines 496-526 turn one decoded outcome into control flow: success
falls through; a nonzero exit code is returned as is; a signal returns
`WTERMSIG(status) + 128`; anything else returns `EX_OSERR` (71). -/
def action_of : Outcome → StepAction
  | .success => .proceed
  | .exitCode n => .halt n
  | .signaled sg => .halt (sg + 128)
  | .abnormal => .halt 71

/-- Lines 496-526: decode the raw wait status, then act on the outcome. -/
def entry_action (s : Nat) : StepAction :=
  action_of (decode_status s)

/-! ## StderrRelay (sequence.c lines 436-470)

The parent reads the child's stderr pipe in chunks of up to 1024 bytes.
For each chunk it scans for `'\n'` (byte 10), emitting the bytes between
`s` and the newline as one prefixed/syslogged line, and after the scan
emits the chunk's remaining tail bytes (`s < n`) as a further line.  The
scan state (`i`, `s`) is local to each chunk: nothing carries over from
one `read` to the next. -/

/-- One iteration of the chunk scan: `pending` holds the bytes since the
last newline (reversed accumulator for `errbuf + s`). -/
def relay_chunk (pending : List Nat) : List Nat → List (List Nat)
  | [] => if pending.isEmpty then [] else [pending.reverse]
  | b :: rest =>
    if b == 10 then pending.reverse :: relay_chunk [] rest
    else relay_chunk (b :: pending) rest

/-- The whole read loop: each chunk is scanned independently and its lines
are emitted in order. -/
def relay (chunks : List (List Nat)) : List (List Nat) :=
  chunks.flatMap (relay_chunk [])

example : relay [[97, 10, 98, 99]] = [[97], [98, 99]] := by decide
example : relay [[97, 98], [99, 100, 10]] = [[97, 98], [99, 100]] := by decide

/-! ## Executor (sequence.c lines 344-537)

The `for` loop walks the sorted names.  In print mode it writes
`dirname/name` to stdout terminated by `'\0'` or `'\n'` (skipping, under
`-i`, entries that fail the fstatat/S_ISREG/faccessat checks).  Otherwise
it pipes, forks and execs the entry; in the child, a failed `execv` exits
`EXIT_SUCCESS` when `-i` is set and `errno == EACCES`, else prints an
error and exits `EXIT_FAILURE`; the parent relays stderr, waits, and
decodes the status via `entry_action`. -/

/-- The command-line options the core loop reads (spec's RunOptions).
`zero` is `-0`, `ignore` is `-i`, `print` is `-p`. -/
structure RunOptions where
  zero : Bool
  ignore : Bool
  print : Bool

/-- The environment's behaviour for one executed entry, from the parent's
point of view: infrastructure failures (`pipe`, `fork`), an `execv`
failure with or without `errno == EACCES`, or a child that ran and
terminated with the given raw wait status having written the given chunks
to its stderr pipe. -/
inductive ExecResult where
  | pipeFail
  | forkFail
  | execFail (eaccess : Bool)
  | execOk (raw : Nat)
deriving DecidableEq

/-- The raw wait status the parent observes for a spawned child.  When
`execv` fails the child itself exits: with `EXIT_SUCCESS` (status `0`)
under `-i` for `EACCES` (lines 416-418), else with `EXIT_FAILURE`
(status `1 << 8`, lines 420-423).  `pipeFail`/`forkFail` never reach the
wait; the catch-all is unused. -/
def child_status (ignore : Bool) : ExecResult → Nat
  | .execOk raw => raw
  | .execFail ea => if ignore && ea then 0 else 256
  | _ => 0

/-- Observable result of a run: the names for which a child process was
created, the names printed in print mode, the bytes written to stdout,
and the process exit code. -/
structure RunResult where
  spawned : List Name
  printed : List Name
  out : List Nat
  code : Nat
deriving DecidableEq

/-- The `for` loop of lines 344-535 followed by the `return EXIT_SUCCESS`
on line 537, over the sorted name list. -/
def main_loop (opts : RunOptions) (dir : Name) (access_ok : Name → Bool)
    (env : Name → ExecResult) : List Name → RunResult
  | [] => ⟨[], [], [], 0⟩
  | nm :: rest =>
    let path := dir ++ [47] ++ nm
    if opts.print then
      if opts.ignore && !access_ok nm then
        main_loop opts dir access_ok env rest
      else
        let r := main_loop opts dir access_ok env rest
        ⟨r.spawned, nm :: r.printed, path ++ [if opts.zero then 0 else 10] ++ r.out, r.code⟩
    else
      match env nm with
      | .pipeFail => ⟨[], [], [], 1⟩
      | .forkFail => ⟨[], [], [], 1⟩
      | r =>
        match entry_action (child_status opts.ignore r) with
        | .proceed =>
          let res := main_loop opts dir access_ok env rest
          ⟨nm :: res.spawned, res.printed, res.out, res.code⟩
        | .halt c => ⟨[nm], [], [], c⟩

/-- The whole core: list, filter, sort, then run the loop. -/
def sequence_run (opts : RunOptions) (dir : Name) (access_ok : Name → Bool)
    (env : Name → ExecResult) (enum : List Name) : RunResult :=
  main_loop opts dir access_ok env (list_names enum)

example :
    sequence_run ⟨true, false, true⟩ [100] (fun _ => true) (fun _ => .execOk 0)
      [[98], [97]] = ⟨[], [[97], [98]], [100, 47, 97, 0, 100, 47, 98, 0], 0⟩ := by decide

example :
    sequence_run ⟨false, false, false⟩ [100] (fun _ => true)
      (fun nm => if nm = [97] then .execOk 0 else .execOk (3 * 256))
      [[98], [97], [99]] = ⟨[[97], [98]], [], [], 3⟩ := by decide

/-! ## Helper lemmas about the executor loop -/

theorem main_loop_print_spawned (opts : RunOptions) (dir : Name) (ac : Name → Bool)
    (env : Name → ExecResult) (hp : opts.print = true) :
    ∀ names : List Name, (main_loop opts dir ac env names).spawned = []
  | [] => rfl
  | hd :: tl => by
    simp only [main_loop, hp, if_true]
    by_cases hi : (opts.ignore && !ac hd) = true
    · simp [hi, main_loop_print_spawned opts dir ac env hp tl]
    · simp [hi, main_loop_print_spawned opts dir ac env hp tl]

theorem main_loop_spawned_take (opts : RunOptions) (dir : Name) (ac : Name → Bool)
    (env : Name → ExecResult) :
    ∀ names : List Name, ∃ k, (main_loop opts dir ac env names).spawned = names.take k
  | [] => ⟨0, rfl⟩
  | hd :: tl => by
    by_cases hp : opts.print = true
    · exact ⟨0, main_loop_print_spawned opts dir ac env hp (hd :: tl)⟩
    · simp only [main_loop, hp, if_false, Bool.false_eq_true]
      cases henv : env hd with
      | pipeFail => exact ⟨0, rfl⟩
      | forkFail => exact ⟨0, rfl⟩
      | execFail ea =>
        cases ha : entry_action (child_status opts.ignore (.execFail ea)) with
        | proceed =>
          obtain ⟨k, hk⟩ := main_loop_spawned_take opts dir ac env tl
          exact ⟨k + 1, by simp [ha, hk]⟩
        | halt c => exact ⟨1, by simp [ha]⟩
      | execOk raw =>
        cases ha : entry_action (child_status opts.ignore (.execOk raw)) with
        | proceed =>
          obtain ⟨k, hk⟩ := main_loop_spawned_take opts dir ac env tl
          exact ⟨k + 1, by simp [ha, hk]⟩
        | halt c => exact ⟨1, by simp [ha]⟩

theorem main_loop_printed_sublist (opts : RunOptions) (dir : Name) (ac : Name → Bool)
    (env : Name → ExecResult) :
    ∀ names : List Name, List.Sublist (main_loop opts dir ac env names).printed names
  | [] => List.Sublist.refl _
  | hd :: tl => by
    by_cases hp : opts.print = true
    · simp only [main_loop, hp, if_true]
      by_cases hi : (opts.ignore && !ac hd) = true
      · simp only [hi, if_true]
        exact (main_loop_printed_sublist opts dir ac env tl).cons hd
      · simp only [hi, if_false, Bool.false_eq_true]
        exact (main_loop_printed_sublist opts dir ac env tl).cons₂ hd
    · simp only [main_loop, hp, if_false, Bool.false_eq_true]
      cases henv : env hd with
      | pipeFail => exact List.nil_sublist _
      | forkFail => exact List.nil_sublist _
      | execFail ea =>
        cases ha : entry_action (child_status opts.ignore (.execFail ea)) with
        | proceed =>
          simp only [ha]
          exact (main_loop_printed_sublist opts dir ac env tl).cons hd
        | halt c => simp [ha]
      | execOk raw =>
        cases ha : entry_action (child_status opts.ignore (.execOk raw)) with
        | proceed =>
          simp only [ha]
          exact (main_loop_printed_sublist opts dir ac env tl).cons hd
        | halt c => simp [ha]

/-! ## Claim theorems -/

/-- C1: for every directory listing, the retained (non-dot) entry names are
executed, or printed in print mode, in byte-wise lexicographic (`strcmp`)
order of their names, independent of the order in which the directory
enumeration returned them: the listing phase yields the same `StrLE`-sorted
list for any enumeration order, spawned entries are a prefix of that sorted
list (taken in order), and printed entries are an in-order sublist of it. -/
theorem C1_lex_order_enum_independent (e₁ e₂ : List Name) (hperm : e₁.Perm e₂) :
    list_names e₁ = list_names e₂ ∧ List.Sorted StrLE (list_names e₁) ∧
    ∀ (opts : RunOptions) (dir : Name) (ac : Name → Bool) (env : Name → ExecResult),
      (∃ k, (sequence_run opts dir ac env e₁).spawned = (list_names e₁).take k) ∧
      List.Sublist (sequence_run opts dir ac env e₁).printed (list_names e₁) := by
  have hsorted₁ : List.Sorted StrLE (list_names e₁) := List.sorted_insertionSort StrLE _
  have hsorted₂ : List.Sorted StrLE (list_names e₂) := List.sorted_insertionSort StrLE _
  have hp : (list_names e₁).Perm (list_names e₂) := by
    unfold list_names
    exact (List.perm_insertionSort _ _).trans
      ((hperm.filter _).trans (List.perm_insertionSort _ _).symm)
  refine ⟨List.eq_of_perm_of_sorted hp hsorted₁ hsorted₂, hsorted₁, ?_⟩
  intro opts dir ac env
  exact ⟨main_loop_spawned_take opts dir ac env _,
         main_loop_printed_sublist opts dir ac env _⟩

/-- C1 witness: concrete permuted enumerations of `10-`, `2-`, `9-` (byte
sequences `[49,48]`, `[50]`, `[57]`) list identically and sorted. -/
theorem C1_lex_order_enum_independent_witness :
    list_names [[50], [57], [49, 48]] = list_names [[49, 48], [50], [57]] ∧
    list_names [[50], [57], [49, 48]] = [[49, 48], [50], [57]] :=
  ⟨(C1_lex_order_enum_independent [[50], [57], [49, 48]] [[49, 48], [50], [57]]
      (by decide)).1,
   by decide⟩

/-- C2: the decode step is a total four-way case split on the raw wait
status: normal exit with status 0 continues as `success`; normal exit with
nonzero code `n` halts with exit code `n`; termination by signal `s` halts
with exit code `s + 128`; any other termination shape halts with the
OS-error code 71. -/
theorem C2_decode_four_outcomes (s : Nat) :
    (wifexited s = true ∧ wexitstatus s = 0 ∧
      decode_status s = .success ∧ entry_action s = .proceed) ∨
    (wifexited s = true ∧ wexitstatus s ≠ 0 ∧
      decode_status s = .exitCode (wexitstatus s) ∧
      entry_action s = .halt (wexitstatus s)) ∨
    (wifsignaled s = true ∧
      decode_status s = .signaled (wtermsig s) ∧
      entry_action s = .halt (wtermsig s + 128)) ∨
    (wifexited s = false ∧ wifsignaled s = false ∧
      decode_status s = .abnormal ∧ entry_action s = .halt 71) := by
  by_cases h1 : wifexited s = true
  · by_cases h2 : wexitstatus s = 0
    · exact Or.inl ⟨h1, h2, by simp [decode_status, h1, h2],
        by simp [entry_action, action_of, decode_status, h1, h2]⟩
    · refine Or.inr (Or.inl ⟨h1, h2, ?_, ?_⟩)
      · simp [decode_status, h1, h2]
      · simp [entry_action, action_of, decode_status, h1, h2]
  · by_cases h3 : wifsignaled s = true
    · refine Or.inr (Or.inr (Or.inl ⟨h3, ?_, ?_⟩))
      · simp [decode_status, h1, h3]
      · simp [entry_action, action_of, decode_status, h1, h3]
    · refine Or.inr (Or.inr (Or.inr ⟨by simpa using h1, by simpa using h3, ?_, ?_⟩))
      · simp [decode_status, h1, h3]
      · simp [entry_action, action_of, decode_status, h1, h3]

/-- C9: a duplicate-free directory enumeration (directory entries are
unique by filesystem semantics) yields an ordered, deduplicated listing:
no name appears more than once in the list handed to the executor, and the
list is sorted by `strcmp`. -/
theorem C9_listing_nodup_sorted (enum : List Name) (h : enum.Nodup) :
    (list_names enum).Nodup ∧ List.Sorted StrLE (list_names enum) := by
  constructor
  · exact ((List.perm_insertionSort StrLE _).nodup_iff).mpr (h.filter _)
  · exact List.sorted_insertionSort StrLE _

/-- C9 witness. -/
theorem C9_listing_nodup_sorted_witness :
    (list_names [[98], [97], [46, 99]]).Nodup ∧
    List.Sorted StrLE (list_names [[98], [97], [46, 99]]) :=
  C9_listing_nodup_sorted [[98], [97], [46, 99]] (by decide)

/-- C10: on a directory with no entries, or only dot-prefixed entries, the
run spawns no child, prints nothing, writes nothing to stdout, and exits
with status 0. -/
theorem C10_empty_run_success (opts : RunOptions) (dir : Name) (ac : Name → Bool)
    (env : Name → ExecResult) (enum : List Name)
    (h : ∀ nm ∈ enum, starts_dot nm = true) :
    sequence_run opts dir ac env enum = ⟨[], [], [], 0⟩ := by
  have hf : enum.filter (fun nm => !starts_dot nm) = [] := by
    rw [List.filter_eq_nil_iff]
    intro nm hmem
    simp [h nm hmem]
  unfold sequence_run list_names
  rw [hf]
  rfl

/-- The outcome the parent decodes for one entry, when a child was created
at all (`pipe`/`fork` failures produce no child and no outcome). -/
def entry_outcome (ignore : Bool) : ExecResult → Option Outcome
  | .pipeFail => none
  | .forkFail => none
  | r => some (decode_status (child_status ignore r))

/-- The overall exit code derived from a halting outcome (spec section 4.2). -/
def outcome_code : Outcome → Nat
  | .success => 0
  | .exitCode n => n
  | .signaled s => s + 128
  | .abnormal => 71

theorem entry_action_of_outcome (ignore : Bool) (r : ExecResult) (oc : Outcome)
    (h : entry_outcome ignore r = some oc) :
    entry_action (child_status ignore r) = action_of oc := by
  cases r with
  | pipeFail => simp [entry_outcome] at h
  | forkFail => simp [entry_outcome] at h
  | execFail ea =>
    simp only [entry_outcome, Option.some.injEq] at h
    rw [entry_action, h]
  | execOk raw =>
    simp only [entry_outcome, Option.some.injEq] at h
    rw [entry_action, h]

/-- C3 part A, over the loop: if every entry's child decodes to success,
every entry is spawned in order and the loop falls through to
`return EXIT_SUCCESS`. -/
theorem main_loop_all_success (z ign : Bool) (dir : Name) (ac : Name → Bool)
    (env : Name → ExecResult) :
    ∀ names : List Name, (∀ nm ∈ names, entry_outcome ign (env nm) = some .success) →
      main_loop ⟨z, ign, false⟩ dir ac env names = ⟨names, [], [], 0⟩
  | [], _ => rfl
  | hd :: tl, h => by
    have hhd := h hd (List.mem_cons_self hd tl)
    have htl := main_loop_all_success z ign dir ac env tl
      (fun nm hm => h nm (List.mem_cons_of_mem hd hm))
    have hact := entry_action_of_outcome ign (env hd) .success hhd
    simp only [main_loop]
    cases henv : env hd with
    | pipeFail => rw [henv] at hhd; simp [entry_outcome] at hhd
    | forkFail => rw [henv] at hhd; simp [entry_outcome] at hhd
    | execFail ea =>
      rw [henv] at hact
      simp [hact, action_of, htl]
    | execOk raw =>
      rw [henv] at hact
      simp [hact, action_of, htl]

/-- C3 part B, over the loop: a run whose entries decode to success up to
the first non-success outcome spawns exactly the prefix up to and
including the failing entry, never spawns a later entry, and exits with
the code derived from that outcome. -/
theorem main_loop_first_failure (z ign : Bool) (dir : Name) (ac : Name → Bool)
    (env : Name → ExecResult) :
    ∀ (pre : List Name) (nm : Name) (post : List Name) (oc : Outcome),
      (∀ m ∈ pre, entry_outcome ign (env m) = some .success) →
      entry_outcome ign (env nm) = some oc → oc ≠ .success →
      main_loop ⟨z, ign, false⟩ dir ac env (pre ++ nm :: post) =
        ⟨pre ++ [nm], [], [], outcome_code oc⟩
  | [], nm, post, oc, _, hnm, hne => by
    have hact := entry_action_of_outcome ign (env nm) oc hnm
    simp only [List.nil_append, main_loop]
    cases henv : env nm with
    | pipeFail => rw [henv] at hnm; simp [entry_outcome] at hnm
    | forkFail => rw [henv] at hnm; simp [entry_outcome] at hnm
    | execFail ea =>
      rw [henv] at hact
      cases oc with
      | success => exact absurd rfl hne
      | exitCode n => simp [hact, action_of, outcome_code]
      | signaled s => simp [hact, action_of, outcome_code]
      | abnormal => simp [hact, action_of, outcome_code]
    | execOk raw =>
      rw [henv] at hact
      cases oc with
      | success => exact absurd rfl hne
      | exitCode n => simp [hact, action_of, outcome_code]
      | signaled s => simp [hact, action_of, outcome_code]
      | abnormal => simp [hact, action_of, outcome_code]
  | p :: pre, nm, post, oc, hpre, hnm, hne => by
    have hp := hpre p (List.mem_cons_self p pre)
    have hact := entry_action_of_outcome ign (env p) .success hp
    have ih := main_loop_first_failure z ign dir ac env pre nm post oc
      (fun m hm => hpre m (List.mem_cons_of_mem p hm)) hnm hne
    simp only [List.cons_append, main_loop]
    cases henv : env p with
    | pipeFail => rw [henv] at hp; simp [entry_outcome] at hp
    | forkFail => rw [henv] at hp; simp [entry_outcome] at hp
    | execFail ea =>
      rw [henv] at hact
      simp [hact, action_of, ih]
    | execOk raw =>
      rw [henv] at hact
      simp [hact, action_of, ih]

/-- C3: in execute mode, a success outcome continues to the next entry, the
first non-success outcome halts the run so that no later entry is ever
spawned, and if every entry yields success the program exits with 0. -/
theorem C3_halt_on_first_failure (z ign : Bool) (dir : Name) (ac : Name → Bool)
    (env : Name → ExecResult) (names : List Name) :
    ((∀ nm ∈ names, entry_outcome ign (env nm) = some .success) →
      main_loop ⟨z, ign, false⟩ dir ac env names = ⟨names, [], [], 0⟩) ∧
    (∀ (pre : List Name) (nm : Name) (post : List Name) (oc : Outcome),
      names = pre ++ nm :: post →
      (∀ m ∈ pre, entry_outcome ign (env m) = some .success) →
      entry_outcome ign (env nm) = some oc → oc ≠ .success →
      main_loop ⟨z, ign, false⟩ dir ac env names = ⟨pre ++ [nm], [], [], outcome_code oc⟩) := by
  refine ⟨main_loop_all_success z ign dir ac env names, ?_⟩
  intro pre nm post oc hsplit hpre hnm hne
  rw [hsplit]
  exact main_loop_first_failure z ign dir ac env pre nm post oc hpre hnm hne

/-- C3 witness: with entries `a`, `b`, `c` where `b` exits 3, exactly `a`
and `b` are spawned and the exit code is 3; when all exit 0, all three are
spawned and the exit code is 0. -/
theorem C3_halt_on_first_failure_witness :
    main_loop ⟨false, false, false⟩ [100] (fun _ => true)
      (fun nm => if nm = [98] then .execOk (3 * 256) else .execOk 0)
      [[97], [98], [99]] = ⟨[[97], [98]], [], [], 3⟩ ∧
    main_loop ⟨false, false, false⟩ [100] (fun _ => true) (fun _ => .execOk 0)
      [[97], [98], [99]] = ⟨[[97], [98], [99]], [], [], 0⟩ :=
  ⟨(C3_halt_on_first_failure false false [100] (fun _ => true)
      (fun nm => if nm = [98] then .execOk (3 * 256) else .execOk 0)
      [[97], [98], [99]]).2 [[97]] [98] [[99]] (.exitCode 3) (by decide)
      (by decide) (by decide) (by decide),
   (C3_halt_on_first_failure false false [100] (fun _ => true) (fun _ => .execOk 0)
      [[97], [98], [99]]).1 (by decide)⟩

/-- C4: if `execv` fails with `EACCES` and `-i` is set, the entry is
treated as a success (the child exits 0) and the run continues with the
remaining entries; with `-i` unset the same failure halts the run with the
spawn-failure exit code 1 (the child reports the error and exits
`EXIT_FAILURE`). -/
theorem C4_eacces_ignore (z : Bool) (dir : Name) (ac : Name → Bool)
    (env : Name → ExecResult) (nm : Name) (rest : List Name)
    (h : env nm = .execFail true) :
    (main_loop ⟨z, true, false⟩ dir ac env (nm :: rest) =
      let r := main_loop ⟨z, true, false⟩ dir ac env rest
      ⟨nm :: r.spawned, r.printed, r.out, r.code⟩) ∧
    (main_loop ⟨z, false, false⟩ dir ac env (nm :: rest) = ⟨[nm], [], [], 1⟩) := by
  constructor
  · simp [main_loop, h, child_status, entry_action, action_of, decode_status, wifexited, wexitstatus]
  · simp only [main_loop, h]
    have : entry_action (child_status false (.execFail true)) = .halt 1 := by decide
    simp [this]

/-- C4 witness: entry `a` is permission-denied; under `-i` entry `b` still
runs and the run succeeds, without `-i` the run halts at `a` with code 1. -/
theorem C4_eacces_ignore_witness :
    (main_loop ⟨false, true, false⟩ [100] (fun _ => true)
      (fun nm => if nm = [97] then .execFail true else .execOk 0) [[97], [98]] =
      ⟨[[97], [98]], [], [], 0⟩) ∧
    (main_loop ⟨false, false, false⟩ [100] (fun _ => true)
      (fun nm => if nm = [97] then .execFail true else .execOk 0) [[97], [98]] =
      ⟨[[97]], [], [], 1⟩) := by
  have h4 := C4_eacces_ignore false [100] (fun _ => true)
    (fun nm => if nm = [97] then .execFail true else .execOk 0) [97] [[98]] (by decide)
  exact ⟨by rw [h4.1]; decide, by rw [h4.2]⟩

/-- C10 witness: a directory holding only `.h` (bytes `[46, 104]`). -/
theorem C10_empty_run_success_witness :
    sequence_run ⟨false, false, false⟩ [100] (fun _ => true) (fun _ => .execOk 0)
      [[46, 104]] = ⟨[], [], [], 0⟩ :=
  C10_empty_run_success ⟨false, false, false⟩ [100] (fun _ => true) (fun _ => .execOk 0)
    [[46, 104]] (by decide)


/-! ## Relay lemmas -/

theorem relay_chunk_flatten : ∀ (pending c : List Nat),
    (relay_chunk pending c).flatten =
      pending.reverse ++ c.filter (fun b => !(b == 10))
  | pending, [] => by
    by_cases h : pending.isEmpty
    · simp [relay_chunk, h, List.isEmpty_iff.mp h]
    · simp [relay_chunk, h]
  | pending, b :: rest => by
    by_cases h : b = 10
    · subst h
      simp [relay_chunk, relay_chunk_flatten [] rest]
    · have hb : (b == 10) = false := by simpa using h
      simp [relay_chunk, hb, relay_chunk_flatten (b :: pending) rest]

/-- No byte of the stream is dropped: the bytes of the relayed lines are
exactly the non-newline bytes of the stream, whatever the chunking. -/
theorem relay_flatten : ∀ chunks : List (List Nat),
    (relay chunks).flatten = chunks.flatten.filter (fun b => !(b == 10))
  | [] => rfl
  | c :: cs => by
    simp only [relay, List.flatMap_cons, List.flatten_append, List.flatten_cons,
      List.filter_append]
    rw [relay_chunk_flatten [] c]
    simpa [relay] using relay_flatten cs

theorem relay_chunk_no_newline : ∀ (pending c : List Nat), (∀ b ∈ c, b ≠ 10) →
    relay_chunk pending c =
      if (pending.reverse ++ c).isEmpty then [] else [pending.reverse ++ c]
  | pending, [], _ => by
    simp only [relay_chunk, List.append_nil, List.isEmpty_iff, List.reverse_eq_nil_iff]
  | pending, b :: rest, h => by
    have hb : (b == 10) = false := by simpa using h b (List.mem_cons_self b rest)
    have ih := relay_chunk_no_newline (b :: pending) rest
      (fun x hx => h x (List.mem_cons_of_mem b hx))
    simp only [relay_chunk, hb, if_false, Bool.false_eq_true]
    rw [ih]
    simp


/-- C5: trailing unterminated bytes at end of stream are flushed, never
dropped: the relayed bytes are exactly the stream's non-newline bytes, and
a stream delivered as one read whose bytes contain no newline (a child
writing the twelve bytes of a short unterminated diagnostic in a single
`write` arrives in one `read`) is relayed as exactly one line equal to
those bytes; in particular the twelve-byte stream
`[112,97,114,116,105,97,108,32,108,105,110,101]` yields exactly that one
relayed line. -/
theorem C5_unterminated_tail_flushed :
    (∀ chunks : List (List Nat),
      (relay chunks).flatten = chunks.flatten.filter (fun b => !(b == 10))) ∧
    (∀ c : List Nat, c ≠ [] → (∀ b ∈ c, b ≠ 10) → relay [c] = [c]) ∧
    relay [[112, 97, 114, 116, 105, 97, 108, 32, 108, 105, 110, 101]] =
      [[112, 97, 114, 116, 105, 97, 108, 32, 108, 105, 110, 101]] := by
  refine ⟨relay_flatten, ?_, by decide⟩
  intro c hne hnl
  have h := relay_chunk_no_newline [] c hnl
  simp only [List.reverse_nil, List.nil_append] at h
  simp [relay, h, List.isEmpty_iff, hne]

/-- C5 witness. -/
theorem C5_unterminated_tail_flushed_witness : relay [[112, 97]] = [[112, 97]] :=
  C5_unterminated_tail_flushed.2.1 [112, 97] (by decide) (by decide)

/-- C6 counterexample: the same stream bytes `ab` `cd` `\n` delivered as
the two read chunks `[97,98]` and `[99,100,10]` versus the single chunk
`[97,98,99,100,10]` are relayed differently (`["ab","cd"]` versus
`["abcd"]`): the scan state is chunk-local, so a line spanning a read
boundary is forwarded as two lines, and the relayed lines are not a
function of the concatenated stream bytes alone. -/
theorem C6_chunk_boundary_counterexample :
    ([[97, 98], [99, 100, 10]] : List (List Nat)).flatten =
      ([[97, 98, 99, 100, 10]] : List (List Nat)).flatten ∧
    relay [[97, 98], [99, 100, 10]] ≠ relay [[97, 98, 99, 100, 10]] := by
  decide

/-- C6 (amended): the relayed byte content, though not the line structure,
is determined solely by the concatenated bytes of the stream: for any two
partitions of the same bytes into read chunks, the concatenations of the
relayed lines are equal (each being the stream's non-newline bytes); the
division into lines additionally depends on the chunk boundaries, a line
spanning a boundary being forwarded as one line per chunk. -/
theorem C6_content_chunk_independent (c₁ c₂ : List (List Nat))
    (h : c₁.flatten = c₂.flatten) :
    (relay c₁).flatten = (relay c₂).flatten := by
  rw [relay_flatten, relay_flatten, h]

/-- C6 witness. -/
theorem C6_content_chunk_independent_witness :
    (relay [[97, 98], [99, 100, 10]]).flatten =
      (relay [[97, 98, 99, 100, 10]]).flatten :=
  C6_content_chunk_independent [[97, 98], [99, 100, 10]] [[97, 98, 99, 100, 10]]
    (by decide)

/-- C7: entries whose name begins with a dot (byte 46) never survive the
listing, and are never printed or executed, in every mode and
configuration: every listed name, every spawned name and every printed
name has a non-dot first byte. -/
theorem C7_dot_entries_excluded (enum : List Name) :
    (∀ nm ∈ list_names enum, starts_dot nm = false) ∧
    (∀ (opts : RunOptions) (dir : Name) (ac : Name → Bool) (env : Name → ExecResult)
      (nm : Name),
      nm ∈ (sequence_run opts dir ac env enum).spawned ∨
        nm ∈ (sequence_run opts dir ac env enum).printed →
      starts_dot nm = false) := by
  have hlist : ∀ nm ∈ list_names enum, starts_dot nm = false := by
    intro nm h
    rw [list_names, List.mem_insertionSort] at h
    have := List.of_mem_filter h
    simpa using this
  refine ⟨hlist, ?_⟩
  intro opts dir ac env nm h
  rcases h with h | h
  · obtain ⟨k, hk⟩ := main_loop_spawned_take opts dir ac env (list_names enum)
    rw [sequence_run] at h
    rw [hk] at h
    exact hlist nm (List.take_subset k _ h)
  · have hsub := main_loop_printed_sublist opts dir ac env (list_names enum)
    rw [sequence_run] at h
    exact hlist nm (hsub.subset h)

/-- C7 witness: with enumeration `[".a", "b"]` the retained entry `b` is
non-dot. -/
theorem C7_dot_entries_excluded_witness :
    starts_dot [98] = false :=
  (C7_dot_entries_excluded [[46, 97], [98]]).1 [98] (by decide)

/-- C8: in print mode with the zero-terminator flag set, stdout receives
exactly the full path of each retained entry (all of them without `-i`,
those passing the access check with `-i`) followed by a single zero byte
and nothing else — no trailing newline; in particular for directory `d`
and entries `a`, `b` the bytes are exactly `d/a\0d/b\0`. -/
theorem C8_print_zero_exact_output (ign : Bool) (dir : Name) (ac : Name → Bool)
    (env : Name → ExecResult) :
    (∀ names : List Name,
      (main_loop ⟨true, ign, true⟩ dir ac env names).out =
        ((if ign then names.filter ac else names).map
          (fun nm => dir ++ [47] ++ nm ++ [0])).flatten) ∧
    (main_loop ⟨true, false, true⟩ [100] (fun _ => true) (fun _ => .execOk 0)
      [[97], [98]]).out = [100, 47, 97, 0, 100, 47, 98, 0] := by
  have hgen : ∀ (ig : Bool) (names : List Name),
      (main_loop ⟨true, ig, true⟩ dir ac env names).out =
        ((if ig then names.filter ac else names).map
          (fun nm => dir ++ [47] ++ nm ++ [0])).flatten := by
    intro ig names
    induction names with
    | nil => cases ig <;> rfl
    | cons hd tl ih =>
      cases ig with
      | false =>
        simp only [main_loop, Bool.false_and, if_true, if_false, Bool.false_eq_true]
        simpa using ih
      | true =>
        by_cases hac : ac hd = true
        · simp only [main_loop, if_true, hac, Bool.not_true, Bool.and_false,
            if_false, Bool.false_eq_true]
          simp only [List.filter_cons, hac, if_true]
          simpa using ih
        · have hac' : ac hd = false := by simpa using hac
          simp only [main_loop, if_true, hac', Bool.not_false, Bool.and_true]
          simp only [List.filter_cons, hac']
          simpa using ih
  exact ⟨hgen ign, by decide⟩
